import Mathlib

/- Verification of the conflict-resolution engine of
   scripts/resolve-conflicts-with-gemini.js.

   The script reads each conflicted file, scans it with the regex

     <<<<<<<[^\n]*\n([\s\S]*?)\n=======\n([\s\S]*?)\n>>>>>>>[^\n]*     (flag g)

   via matchAll, asks the Gemini API for a resolution of each match
   (with up to 3 attempts and exponential backoff), splices the answers
   back in descending match order, writes the file back and stages it.

   The embedding below models file text as `List Char`.  The regex is an
   executable scanner faithful to JS matchAll semantics:
   - matchAll finds leftmost matches and resumes scanning at the end of
     each match (non-overlapping);
   - `<<<<<<<` may occur anywhere (the pattern is not anchored to a line
     start);
   - `[^\n]*\n` deterministically consumes the rest of the line plus the
     newline (backtracking cannot shorten it, because every given-back
     character is a non-newline and hence cannot satisfy the `\n`);
   - the lazy group `([\s\S]*?)\n=======\n` selects the first occurrence
     of the infix `\n=======\n`; if no `\n>>>>>>>` occurs after it the
     whole match attempt fails, because any later occurrence of
     `\n=======\n` would need an occurrence of `\n>>>>>>>` even further
     right, so regex backtracking cannot rescue the attempt;
   - the lazy group `([\s\S]*?)\n>>>>>>>` selects the first occurrence
     of `\n>>>>>>>` after the separator, and the final greedy `[^\n]*`
     extends the match to the end of that line. -/

/- ### The conflict-marker scanner (the `conflictRegex` of the script) -/

def wordLT : List Char := ['<', '<', '<', '<', '<', '<', '<']

def wordEq : List Char := ['=', '=', '=', '=', '=', '=', '=']

def wordGT : List Char := ['>', '>', '>', '>', '>', '>', '>']

/-- The infix `\n=======\n` that the first lazy group stops at. -/
def sepPat : List Char := '\n' :: wordEq ++ ['\n']

/-- The infix `\n>>>>>>>` that the second lazy group stops at. -/
def gtPat : List Char := '\n' :: wordGT

/-- One regex match: `index` and `len` delimit `match[0]` (the region's
sourceSpan), `ours` is capture group 1 and `theirs` capture group 2. -/
structure RawMatch where
  index : Nat
  len : Nat
  ours : List Char
  theirs : List Char
deriving DecidableEq

/-- Position of the first occurrence of `pat` as an infix of `s`. -/
def findSub (pat : List Char) : List Char → Option Nat
  | [] => if pat.isPrefixOf [] then some 0 else none
  | c :: rest => if pat.isPrefixOf (c :: rest) then some 0 else (findSub pat rest).map (· + 1)

/-- One anchored attempt of the conflict regex at the start of `s`
(the returned `index` field is a placeholder fixed up by the scanner). -/
def matchAt (s : List Char) : Option RawMatch :=
  if wordLT.isPrefixOf s then
    let r1 := s.drop 7
    let lbl := r1.takeWhile (· != '\n')
    if lbl.length < r1.length then
      let r2 := r1.drop (lbl.length + 1)
      match findSub sepPat r2 with
      | none => none
      | some k1 =>
        let r3 := r2.drop (k1 + 9)
        match findSub gtPat r3 with
        | none => none
        | some k2 =>
          let lblEnd := (r3.drop (k2 + 8)).takeWhile (· != '\n')
          some { index := 0,
                 len := 7 + lbl.length + 1 + k1 + 9 + k2 + 8 + lblEnd.length,
                 ours := r2.take k1,
                 theirs := r3.take k2 }
    else
      none
  else
    none

/-- The matchAll scan: try an anchored match at every position, emit the
match and jump past it on success.  The fuel argument only serves
structural termination; `content.length` is always enough because each
step consumes at least one character. -/
def scanFuel : Nat → List Char → Nat → List RawMatch
  | 0, _, _ => []
  | _ + 1, [], _ => []
  | fuel + 1, c :: rest, off =>
    match matchAt (c :: rest) with
    | some m => { m with index := off } :: scanFuel fuel ((c :: rest).drop m.len) (off + m.len)
    | none => scanFuel fuel rest (off + 1)

/-- `[...content.matchAll(conflictRegex)]` of the script. -/
def conflictMatches (content : List Char) : List RawMatch :=
  scanFuel content.length content 0

/- ### The resolution client (`callGeminiAPI` / `getGeminiResolution`) -/

/-- Shape of a Gemini response payload, as far as
`response.candidates[0].content.parts[0].text` navigates it: any missing
step of the chain makes the extraction throw. -/
structure GPart where
  text : Option (List Char)
deriving DecidableEq

structure GContent where
  parts : List GPart
deriving DecidableEq

structure GCandidate where
  content : Option GContent
deriving DecidableEq

structure GPayload where
  candidates : List GCandidate
deriving DecidableEq

/-- Result of one HTTP exchange: a transport error or non-2xx status is
`httpError` (the code rejects the promise in both cases), a 2xx status
with parsed JSON body is `httpOk`. -/
inductive CallAttempt where
  | httpError (detail : List Char)
  | httpOk (p : GPayload)
deriving DecidableEq

/-- `MAX_RETRIES` of the script. -/
def MAX_RETRIES : Nat := 3

/-- Observable result of `callGeminiAPI`: its outcome, how many attempts
were made, and the induced backoff delays in milliseconds, in order. -/
structure CallResult where
  outcome : CallAttempt
  attemptsMade : Nat
  delays : List Nat
deriving DecidableEq

/-- The retry loop `for (let i = 0; i < MAX_RETRIES; i++)`: `i` is the
current attempt index and the second argument is `MAX_RETRIES - i`.
On failure of attempt `i`, if `i === MAX_RETRIES - 1` the error is
rethrown, else the loop sleeps `1000 * 2 ** i` ms and retries.  The
fuel-0 case is unreachable from `callGeminiAPI` since `MAX_RETRIES = 3`
(in JS the loop would fall through returning undefined). -/
def callLoop (attempt : Nat → CallAttempt) : Nat → Nat → CallResult
  | i, 0 => ⟨.httpError [], i, []⟩
  | i, r + 1 =>
    match attempt i with
    | .httpOk p => ⟨.httpOk p, i + 1, []⟩
    | .httpError e =>
      if r = 0 then ⟨.httpError e, i + 1, []⟩
      else
        let rest := callLoop attempt (i + 1) r
        ⟨rest.outcome, rest.attemptsMade, 1000 * 2 ^ i :: rest.delays⟩

/-- `callGeminiAPI`, abstracted over the sequence of HTTP outcomes. -/
def callGeminiAPI (attempt : Nat → CallAttempt) : CallResult :=
  callLoop attempt 0 MAX_RETRIES

/-- `response.candidates[0].content.parts[0].text`; `none` when any step
of the property chain is missing. -/
def extractText (p : GPayload) : Option (List Char) :=
  match p.candidates with
  | [] => none
  | c :: _ =>
    match c.content with
    | none => none
    | some ct =>
      match ct.parts with
      | [] => none
      | part :: _ => part.text

/-- Whitespace for the purposes of `String.prototype.trim` (restricted to
the ASCII whitespace characters that can appear in this model). -/
def isWS (c : Char) : Bool :=
  c == ' ' || c == '\t' || c == '\n' || c == '\r'

/-- `text.trim()`: leading and trailing whitespace removed. -/
def trimChars (s : List Char) : List Char :=
  ((s.dropWhile isWS).reverse.dropWhile isWS).reverse

/-- Spec-level failure taxonomy for a resolver call: NETWORK after
exhausted retries, MALFORMED_RESPONSE when the text field cannot be
located in a 2xx payload. -/
inductive FailKind where
  | network
  | malformedResponse
deriving DecidableEq

/-- Outcome of one resolver call (`ResolutionOutcome` of the spec). -/
inductive ResolutionOutcome where
  | resolvedText (t : List Char)
  | failure (kind : FailKind) (detail : List Char)
deriving DecidableEq

/-- Detail text of the extraction error thrown by `getGeminiResolution`. -/
def malformedDetail : List Char :=
  ("Could not extract resolved code from Gemini response.").data

/-- `getGeminiResolution`: run the retried call; an exhausted-retries
error surfaces as a NETWORK failure, a 2xx payload without the expected
text field as a MALFORMED_RESPONSE failure (not retried), and otherwise
the text field is returned trimmed.  The `CallResult` is kept so that
attempt counts and delays remain observable. -/
def getGeminiResolution (attempt : Nat → CallAttempt) : ResolutionOutcome × CallResult :=
  let c := callGeminiAPI attempt
  match c.outcome with
  | .httpError e => (.failure .network e, c)
  | .httpOk p =>
    match extractText p with
    | none => (.failure .malformedResponse malformedDetail, c)
    | some t => (.resolvedText (trimChars t), c)

/- ### The per-file resolver (`resolveConflictsInFile`) -/

/-- `content.substring(0, idx) + r + content.substring(idx + len)`. -/
def spliceAt (content : List Char) (idx len : Nat) (r : List Char) : List Char :=
  content.take idx ++ r ++ content.drop (idx + len)

/-- A resolver oracle abstracts the sequence of `getGeminiResolution`
results: argument 1 is the global call counter (how many resolver calls
happened before, across all files of the run), arguments 2 and 3 are the
`ourCode`/`theirCode` of the region being resolved. -/
abbrev ResolverOracle := Nat → List Char → List Char → ResolutionOutcome

/-- Result of the region loop of `resolveConflictsInFile`: the final
buffer and call counter, or the first failure (the thrown exception). -/
inductive RegionsResult where
  | done (c : List Char) (k : Nat)
  | failedAt (kind : FailKind) (detail : List Char)
deriving DecidableEq

/-- The `for (const match of matches.reverse())` loop: splice each
resolution at the match's original offsets into the current buffer;
a failing call throws, ending the loop immediately. -/
def resolveRegions (oracle : ResolverOracle) (k : Nat) (content : List Char) :
    List RawMatch → RegionsResult
  | [] => .done content k
  | m :: ms =>
    match oracle k m.ours m.theirs with
    | .failure kind d => .failedAt kind d
    | .resolvedText r => resolveRegions oracle (k + 1) (spliceAt content m.index m.len r) ms

/-- Result of `resolveConflictsInFile` for one file: early return without
a write when no markers were found, a write-back of the final buffer, or
a propagated region failure (PARTIAL_FAILURE in the spec: the loop threw,
so no write happened). -/
inductive FileOutcome where
  | noConflicts
  | wroteContent (c : List Char)
  | regionFailure (kind : FailKind) (detail : List Char)
deriving DecidableEq

/-- `resolveConflictsInFile`, abstracted over the resolver oracle; also
returns the advanced call counter. -/
def resolveConflictsInFile (oracle : ResolverOracle) (k : Nat) (content : List Char) :
    FileOutcome × Nat :=
  let ms := conflictMatches content
  if ms.isEmpty then (.noConflicts, k)
  else
    match resolveRegions oracle k content ms.reverse with
    | .done c k' => (.wroteContent c, k')
    | .failedAt kind d => (.regionFailure kind d, k)

/- ### The orchestrator (`main`) -/

/-- What `fs.stat` reports for a path: a directory (submodule), a plain
file with the given text, or `none` when stat throws (the path does not
exist, as in a delete/modify conflict). -/
inductive PathKind where
  | dir
  | file (content : List Char)
deriving DecidableEq

abbrev Fs := List Char → Option PathKind

/-- Observable collaborator calls of the orchestrator loop: the submodule
warning, the write-back (`fs.writeFile`) and the stage call (`git add`). -/
inductive Event where
  | warnSubmodule (p : List Char)
  | wrote (p : List Char) (content : List Char)
  | staged (p : List Char)
deriving DecidableEq

/-- Events emitted from some point of the run on, and whether the process
exits with a failure signal. -/
structure RunOutcome where
  events : List Event
  exitFailure : Bool
deriving DecidableEq

/-- The `for (const file of conflictedFiles)` loop inside `try`, with the
post-loop submodule check.  `k` is the global resolver-call counter and
`flag` the `unresolvedSubmodules` flag.  A stat error or a region failure
is caught by the surrounding catch, which exits 1 without touching the
remaining paths. -/
def runLoop (fs : Fs) (oracle : ResolverOracle) : List (List Char) → Nat → Bool → RunOutcome
  | [], _, flag => ⟨[], flag⟩
  | p :: rest, k, flag =>
    match fs p with
    | none => ⟨[], true⟩
    | some .dir =>
      let r := runLoop fs oracle rest k true
      ⟨.warnSubmodule p :: r.events, r.exitFailure⟩
    | some (.file c) =>
      match resolveConflictsInFile oracle k c with
      | (.noConflicts, k') =>
        let r := runLoop fs oracle rest k' flag
        ⟨.staged p :: r.events, r.exitFailure⟩
      | (.wroteContent c', k') =>
        let r := runLoop fs oracle rest k' flag
        ⟨.wrote p c' :: .staged p :: r.events, r.exitFailure⟩
      | (.regionFailure _ _, _) => ⟨[], true⟩

/-- `main` after the conflicted-path list has been obtained. -/
def runMain (fs : Fs) (oracle : ResolverOracle) (paths : List (List Char)) : RunOutcome :=
  runLoop fs oracle paths 0 false

/- ### The splice-order oracle of the spec (claim C2) -/

/-- Modelled from the spec: the correctness oracle that, after each
single splice, re-parses the resulting buffer and splices the next
(now-last) region with the next resolved text. -/
def oracleLoop : List (List Char) → List Char → List Char
  | [], content => content
  | r :: rs, content =>
    match (conflictMatches content).getLast? with
    | none => oracleLoop rs content
    | some m => oracleLoop rs (spliceAt content m.index m.len r)

/-- The region loop of the code restricted to its splicing effect:
matches are processed in the given order (descending `index` when called
on `(conflictMatches content).reverse`), each consuming one resolved
text. -/
def descLoop : List (List Char) → List Char → List RawMatch → List Char
  | [], content, _ => content
  | _ :: _, content, [] => content
  | r :: rs, content, m :: ms => descLoop rs (spliceAt content m.index m.len r) ms

/-- Final buffer the code produces for a file from an assignment `rs` of
resolved texts to its regions in descending-offset processing order. -/
def codeResolve (rs : List (List Char)) (content : List Char) : List Char :=
  descLoop rs content (conflictMatches content).reverse

/-- Each splice leaves the not-yet-processed regions intact: re-parsing
the spliced buffer returns exactly the original matches minus the one
just resolved.  This is the offset-validity invariant of the spec; it
can fail when a resolved text itself contains conflict markers. -/
def stableUnder : List (List Char) → List Char → Bool
  | [], _ => true
  | r :: rs, content =>
    match (conflictMatches content).getLast? with
    | none => false
    | some m =>
      decide (conflictMatches (spliceAt content m.index m.len r)
          = (conflictMatches content).dropLast)
        && stableUnder rs (spliceAt content m.index m.len r)

/- ### A generator for texts made of well-formed marker triples (claim C4) -/

/-- Modelled from the spec: one well-formed conflict-marker triple.  The
variant bodies are given as lists of newline-free lines; the label texts
are the remainders of the two marker lines. -/
structure Triple where
  lbl : List Char
  oursLines : List (List Char)
  theirsLines : List (List Char)
  lbl2 : List Char
deriving DecidableEq

/-- Lines joined with a trailing newline each. -/
def joinLines (ls : List (List Char)) : List Char :=
  (ls.map (fun l => l ++ ['\n'])).flatten

/-- Lines joined with separating newlines: the variant body text exactly
as capture groups 1 and 2 of the regex produce it. -/
def bodyText : List (List Char) → List Char
  | [] => []
  | [l] => l
  | l :: ls => l ++ '\n' :: bodyText ls

/-- The raw text of one triple, from the first character of `<<<<<<<` to
the last character of the `>>>>>>>` marker line (no trailing newline). -/
def blockText (t : Triple) : List Char :=
  wordLT ++ t.lbl ++ '\n' :: (joinLines t.oursLines ++ wordEq ++ '\n' ::
    (joinLines t.theirsLines ++ wordGT ++ t.lbl2))

/-- Triples interleaved with filler text (the filler following each
triple). -/
def blocksText : List (Triple × List Char) → List Char
  | [] => []
  | (t, fil) :: rest => blockText t ++ (fil ++ blocksText rest)

/-- A whole file text: leading filler, then triples each followed by
filler. -/
def buildText (pre : List Char) (bs : List (Triple × List Char)) : List Char :=
  pre ++ blocksText bs

/-- No occurrence of the 7-character ours marker starts at any of the
first `n` positions of `s`. -/
def anchorFree (s : List Char) (n : Nat) : Bool :=
  (List.range n).all fun p => !(wordLT.isPrefixOf (s.drop p))

/-- Well-formedness of one triple, without any requirement on body size:
labels and body lines are newline-free, no ours body line is exactly the
separator marker, and no theirs body line starts with the theirs
marker. -/
def tripleShape (t : Triple) : Bool :=
  t.lbl.all (· != '\n') && t.lbl2.all (· != '\n')
    && t.oursLines.all (fun l => l.all (· != '\n') && !(l == wordEq))
    && t.theirsLines.all (fun l => l.all (· != '\n') && !(wordGT.isPrefixOf l))

/-- Full well-formedness of one triple: additionally each variant body
consists of at least one (possibly empty) line, i.e. there is at least
one newline strictly between consecutive marker lines. -/
def tripleOK (t : Triple) : Bool :=
  tripleShape t && !t.oursLines.isEmpty && !t.theirsLines.isEmpty

/-- The filler after a triple must start on a fresh line (or close the
text), since the final `[^\n]*` of the regex extends the match to the end
of the `>>>>>>>` line. -/
def fillerHead (fil after : List Char) : Bool :=
  fil.head? == some '\n' || (fil.isEmpty && after.isEmpty)

/-- Non-overlap of the triples in a list: each triple is well formed and
no filler position starts an ours marker (in particular no filler bleeds
into the following triple's marker). -/
def benignBlocks : List (Triple × List Char) → Bool
  | [] => true
  | (t, fil) :: rest =>
    tripleOK t && fillerHead fil (blocksText rest)
      && anchorFree (fil ++ blocksText rest) fil.length
      && benignBlocks rest

/-- Like `benignBlocks` but with `tripleShape` only, i.e. admitting
triples whose variant bodies are completely empty — the reading of
"well-formed, non-overlapping marker triples (variant bodies possibly
empty)" in claim C4. -/
def benignBlocks0 : List (Triple × List Char) → Bool
  | [] => true
  | (t, fil) :: rest =>
    tripleShape t && fillerHead fil (blocksText rest)
      && anchorFree (fil ++ blocksText rest) fil.length
      && benignBlocks0 rest

/-- The match list the scanner is expected to produce on
`buildText pre bs` (starting at offset `pre.length`). -/
def expectedFrom : Nat → List (Triple × List Char) → List RawMatch
  | _, [] => []
  | off, (t, fil) :: rest =>
    { index := off, len := (blockText t).length,
      ours := bodyText t.oursLines, theirs := bodyText t.theirsLines }
      :: expectedFrom (off + (blockText t).length + fil.length) rest

/- ### Concrete instances used by witnesses and counterexamples -/

/-- Input text of the scenario in claim C7. -/
def txtC7 : List Char :=
  ("a\n<<<<<<< HEAD\nfoo\n=======\nbar\n>>>>>>> branch\nb\n").data

/-- Resolver stub returning "baz" for every region. -/
def oracleBaz : ResolverOracle := fun _ _ _ => .resolvedText (("baz").data)

/-- A text with no conflict markers at all. -/
def txtPlain : List Char := ("hello").data

/-- A one-file file system whose only path `f` holds marker-free text. -/
def fsPlain : Fs :=
  fun q => if q = ("f").data then some (.file txtPlain) else none

/-- A text consisting of two conflict blocks. -/
def txtTwo : List Char :=
  ("<<<<<<< a\nx\n=======\ny\n>>>>>>> b\n<<<<<<< a\nx\n=======\ny\n>>>>>>> b\n").data

/-- A resolved text that is itself a full conflict block. -/
def resBlock : List Char :=
  ("<<<<<<< c\nq\n=======\nw\n>>>>>>> d").data

/-- Marker-bearing assignment for the two regions of `txtTwo`, in
descending processing order: the later region gets a whole conflict
block, the earlier one plain text. -/
def rsMarkers : List (List Char) := [resBlock, ("z").data]

/-- Marker-free assignment for the two regions of `txtTwo`, in descending
processing order. -/
def rsPlain : List (List Char) := [("X").data, ("Y").data]

/-- Anchor occurring in the middle of a line (claim C9). -/
def txtMid : List Char :=
  ("x<<<<<<< H\nfoo\n=======\nbar\n>>>>>>> b").data

/-- An empty-bodied triple: `<<<<<<< HEAD` immediately followed by the
separator line (the git format for an empty ours variant). -/
def tripleEmptyOurs : Triple :=
  { lbl := (" HEAD").data, oursLines := [], theirsLines := [("bar").data], lbl2 := (" b").data }

/-- Two well-formed triples with nonempty bodies and fillers. -/
def tripleA : Triple :=
  { lbl := (" x").data, oursLines := [("foo").data], theirsLines := [("bar").data],
    lbl2 := (" y").data }

def tripleB : Triple :=
  { lbl := (" u").data, oursLines := [("p").data, ("q").data], theirsLines := [[]],
    lbl2 := (" v").data }

def blocksGood : List (Triple × List Char) :=
  [(tripleA, ("\nmid\n").data), (tripleB, ("\n").data)]

/-- Oracle failing on the second resolver call of the run with a
malformed-response failure (the scenario of claim C5). -/
def oracleFailSecond : ResolverOracle := fun k _ _ =>
  if k = 1 then .failure .malformedResponse (("bad").data)
  else .resolvedText (("ok").data)

/-- File system of the claim C5 scenario: `t` holds two regions, `u` is a
further conflicted file that must never be reached. -/
def fsTwoFiles : Fs := fun q =>
  if q = ("t").data then some (.file txtTwo)
  else if q = ("u").data then some (.file txtC7)
  else none

/-- File system of the claim C6 scenario: `dirA` is a directory and
`file.txt` has one resolvable region. -/
def fsDirAndFile : Fs := fun q =>
  if q = ("dirA").data then some .dir
  else if q = ("file.txt").data then some (.file txtC7)
  else none

/-- A payload carrying the expected text field (with whitespace to be
trimmed). -/
def payloadGood : GPayload :=
  { candidates := [{ content := some { parts := [{ text := some ((" hi ").data) }] } }] }

/-- A 2xx payload in which the text field cannot be located. -/
def payloadBad : GPayload := { candidates := [] }

/-- Attempt sequence failing twice, then succeeding. -/
def attemptsFFS : Nat → CallAttempt := fun i =>
  if i < 2 then .httpError (("boom").data) else .httpOk payloadGood

/-- Attempt sequence failing on every attempt. -/
def attemptsFFF : Nat → CallAttempt := fun _ => .httpError (("down").data)

/-- Attempt sequence succeeding immediately with a malformed payload. -/
def attemptsBad : Nat → CallAttempt := fun _ => .httpOk payloadBad

/-- Attempt sequence succeeding immediately with a good payload. -/
def attemptsGood : Nat → CallAttempt := fun _ => .httpOk payloadGood

/- ### Basic list lemmas -/

theorem isPrefixOf_append_self (xs ys : List Char) : xs.isPrefixOf (xs ++ ys) = true := by
  induction xs with
  | nil => simp [List.isPrefixOf]
  | cons a as ih => simp [List.isPrefixOf, ih]

theorem take_len_append {α : Type} (xs ys : List α) : (xs ++ ys).take xs.length = xs := by
  induction xs with
  | nil => rfl
  | cons a as ih => simp [ih]

theorem drop_len_append {α : Type} (xs ys : List α) : (xs ++ ys).drop xs.length = ys := by
  induction xs with
  | nil => rfl
  | cons a as ih => simp [ih]

theorem takeWhile_line (l t : List Char) (hl : ∀ c ∈ l, c ≠ '\n')
    (ht : t = [] ∨ t.head? = some '\n') :
    (l ++ t).takeWhile (· != '\n') = l := by
  induction l with
  | nil =>
    rcases ht with h | h
    · simp [h]
    · cases t with
      | nil => rfl
      | cons c cs =>
        simp at h
        subst h
        simp [List.takeWhile_cons]
  | cons a as ih =>
    have ha : (a != '\n') = true := by
      simpa [bne_iff_ne] using hl a (by simp)
    simp only [List.cons_append, List.takeWhile_cons, ha, if_true]
    rw [ih (fun c hc => hl c (by simp [hc]))]

/- ### findSub lemmas -/

theorem findSub_cons_pos (pat : List Char) (c : Char) (rest : List Char)
    (h : pat.isPrefixOf (c :: rest) = true) :
    findSub pat (c :: rest) = some 0 := by
  simp [findSub, h]

theorem findSub_cons_neg (pat : List Char) (c : Char) (rest : List Char)
    (h : pat.isPrefixOf (c :: rest) = false) :
    findSub pat (c :: rest) = (findSub pat rest).map (· + 1) := by
  simp [findSub, h]

theorem findSub_skip (p' l s : List Char) (hl : ∀ c ∈ l, c ≠ '\n') :
    findSub ('\n' :: p') (l ++ s) = (findSub ('\n' :: p') s).map (· + l.length) := by
  induction l with
  | nil =>
    simp only [List.nil_append, List.length_nil]
    cases findSub ('\n' :: p') s <;> simp
  | cons a as ih =>
    have ha : ('\n' == a) = false := by
      have := hl a (by simp)
      simp [beq_eq_false_iff_ne]
      exact fun hc => this hc.symm
    have hpre : ('\n' :: p').isPrefixOf (a :: (as ++ s)) = false := by
      simp [List.isPrefixOf, ha]
    rw [List.cons_append, findSub_cons_neg _ _ _ hpre,
      ih (fun c hc => hl c (by simp [hc]))]
    cases findSub ('\n' :: p') s with
    | none => simp
    | some k => simp; omega

/-- If a line followed by a newline starts with `w ++ [newline]` for a
newline-free `w`, the line is `w` itself. -/
theorem line_eq_of_marker (w : List Char) (hw : ∀ c ∈ w, c ≠ '\n') :
    ∀ (l s : List Char), (∀ c ∈ l, c ≠ '\n') →
      (w ++ ['\n']).isPrefixOf (l ++ '\n' :: s) = true → l = w := by
  induction w with
  | nil =>
    intro l s hl h
    cases l with
    | nil => rfl
    | cons c cs =>
      simp [List.isPrefixOf, beq_iff_eq] at h
      exact absurd h.symm (hl c (by simp))
  | cons a w' ih =>
    intro l s hl h
    cases l with
    | nil =>
      simp [List.isPrefixOf, beq_iff_eq] at h
      exact absurd h.1 (hw a (by simp))
    | cons c cs =>
      simp only [List.cons_append, List.isPrefixOf, Bool.and_eq_true, beq_iff_eq] at h
      have := ih (fun x hx => hw x (by simp [hx])) cs s (fun x hx => hl x (by simp [hx])) h.2
      rw [this, h.1]

/-- A newline-free `w` that is a prefix of a newline-free line extended by
a newline is already a prefix of the line. -/
theorem isPrefixOf_line_of_ext (w : List Char) (hw : ∀ c ∈ w, c ≠ '\n') :
    ∀ (l s : List Char), (∀ c ∈ l, c ≠ '\n') →
      w.isPrefixOf (l ++ '\n' :: s) = true → w.isPrefixOf l = true := by
  induction w with
  | nil => intro l s _ _; simp [List.isPrefixOf]
  | cons a w' ih =>
    intro l s hl h
    cases l with
    | nil =>
      simp [List.isPrefixOf, beq_iff_eq] at h
      exact absurd h.1 (hw a (by simp))
    | cons c cs =>
      simp only [List.cons_append, List.isPrefixOf, Bool.and_eq_true, beq_iff_eq] at h
      have := ih (fun x hx => hw x (by simp [hx])) cs s (fun x hx => hl x (by simp [hx])) h.2
      simp [List.isPrefixOf, beq_iff_eq, h.1, this]

/- ### joinLines lemmas and the two first-occurrence lemmas -/

theorem joinLines_cons (l : List Char) (ls : List (List Char)) :
    joinLines (l :: ls) = l ++ '\n' :: joinLines ls := by
  simp [joinLines]

theorem joinLines_nil : joinLines [] = [] := rfl

theorem joinLines_eq_body (L : List (List Char)) (h : L ≠ []) :
    joinLines L = bodyText L ++ ['\n'] := by
  induction L with
  | nil => exact absurd rfl h
  | cons l ls ih =>
    cases ls with
    | nil => simp [joinLines, bodyText]
    | cons l2 ls' =>
      rw [joinLines_cons, ih (by simp)]
      show _ = (l ++ '\n' :: bodyText (l2 :: ls')) ++ ['\n']
      simp

theorem joinLines_length_pos (l : List Char) (ls : List (List Char)) :
    1 ≤ (joinLines (l :: ls)).length := by
  rw [joinLines_cons]
  simp
  omega

theorem wordEq_no_nl : ∀ c ∈ wordEq, c ≠ '\n' := by decide

theorem wordGT_no_nl : ∀ c ∈ wordGT, c ≠ '\n' := by decide

/-- First occurrence of `\n=======\n` in a joined body followed by the
separator marker line: it is at the final newline of the body, because no
body line is exactly `=======`. -/
theorem sepFind (L : List (List Char)) (X : List Char) (hne : L ≠ [])
    (hL : ∀ l ∈ L, (∀ c ∈ l, c ≠ '\n') ∧ l ≠ wordEq) :
    findSub sepPat (joinLines L ++ (wordEq ++ '\n' :: X))
      = some ((joinLines L).length - 1) := by
  induction L with
  | nil => exact absurd rfl hne
  | cons l ls ih =>
    have hlnl : ∀ c ∈ l, c ≠ '\n' := (hL l (by simp)).1
    cases ls with
    | nil =>
      rw [joinLines_cons, joinLines_nil]
      have htxt : (l ++ '\n' :: ([] : List Char)) ++ (wordEq ++ '\n' :: X)
          = l ++ ('\n' :: (wordEq ++ '\n' :: X)) := by simp
      rw [htxt]
      show findSub ('\n' :: (wordEq ++ ['\n'])) _ = _
      rw [findSub_skip _ _ _ hlnl]
      have hhead : ('\n' :: (wordEq ++ ['\n'])).isPrefixOf
          ('\n' :: (wordEq ++ '\n' :: X)) = true := by
        have : wordEq ++ '\n' :: X = (wordEq ++ ['\n']) ++ X := by simp
        simp [List.isPrefixOf, this, isPrefixOf_append_self]
      rw [findSub_cons_pos _ _ _ hhead]
      simp
    | cons l2 ls' =>
      have hl2 := hL l2 (by simp)
      rw [joinLines_cons]
      have htxt : (l ++ '\n' :: joinLines (l2 :: ls')) ++ (wordEq ++ '\n' :: X)
          = l ++ ('\n' :: (joinLines (l2 :: ls') ++ (wordEq ++ '\n' :: X))) := by simp
      rw [htxt]
      show findSub ('\n' :: (wordEq ++ ['\n'])) _ = _
      rw [findSub_skip _ _ _ hlnl]
      have hhead : ('\n' :: (wordEq ++ ['\n'])).isPrefixOf
          ('\n' :: (joinLines (l2 :: ls') ++ (wordEq ++ '\n' :: X))) = false := by
        rw [joinLines_cons l2 ls']
        have h2 : (wordEq ++ ['\n']).isPrefixOf
            (l2 ++ '\n' :: (joinLines ls' ++ (wordEq ++ '\n' :: X))) = false := by
          cases hb : (wordEq ++ ['\n']).isPrefixOf
              (l2 ++ '\n' :: (joinLines ls' ++ (wordEq ++ '\n' :: X))) with
          | false => rfl
          | true =>
            exact absurd (line_eq_of_marker wordEq wordEq_no_nl l2 _ hl2.1 hb) hl2.2
        have hassoc : (l2 ++ '\n' :: joinLines ls') ++ (wordEq ++ '\n' :: X)
            = l2 ++ '\n' :: (joinLines ls' ++ (wordEq ++ '\n' :: X)) := by simp
        simp [List.isPrefixOf, hassoc, h2]
      rw [findSub_cons_neg _ _ _ hhead]
      have ihv := ih (by simp) (fun x hx => hL x (by simp [hx]))
      show ((findSub sepPat _).map _).map _ = _
      rw [ihv]
      have hpos := joinLines_length_pos l2 ls'
      simp only [Option.map_some']
      congr 1
      simp only [List.length_append, List.length_cons]
      omega

/-- First occurrence of `\n>>>>>>>` in a joined body followed by the
theirs marker: it is at the final newline of the body, because no body
line starts with `>>>>>>>`. -/
theorem gtFind (L : List (List Char)) (X : List Char) (hne : L ≠ [])
    (hL : ∀ l ∈ L, (∀ c ∈ l, c ≠ '\n') ∧ wordGT.isPrefixOf l = false) :
    findSub gtPat (joinLines L ++ (wordGT ++ X))
      = some ((joinLines L).length - 1) := by
  induction L with
  | nil => exact absurd rfl hne
  | cons l ls ih =>
    have hlnl : ∀ c ∈ l, c ≠ '\n' := (hL l (by simp)).1
    cases ls with
    | nil =>
      rw [joinLines_cons, joinLines_nil]
      have htxt : (l ++ '\n' :: ([] : List Char)) ++ (wordGT ++ X)
          = l ++ ('\n' :: (wordGT ++ X)) := by simp
      rw [htxt]
      show findSub ('\n' :: wordGT) _ = _
      rw [findSub_skip _ _ _ hlnl]
      have hhead : ('\n' :: wordGT).isPrefixOf ('\n' :: (wordGT ++ X)) = true := by
        simp [List.isPrefixOf, isPrefixOf_append_self]
      rw [findSub_cons_pos _ _ _ hhead]
      simp
    | cons l2 ls' =>
      have hl2 := hL l2 (by simp)
      rw [joinLines_cons]
      have htxt : (l ++ '\n' :: joinLines (l2 :: ls')) ++ (wordGT ++ X)
          = l ++ ('\n' :: (joinLines (l2 :: ls') ++ (wordGT ++ X))) := by simp
      rw [htxt]
      show findSub ('\n' :: wordGT) _ = _
      rw [findSub_skip _ _ _ hlnl]
      have hhead : ('\n' :: wordGT).isPrefixOf
          ('\n' :: (joinLines (l2 :: ls') ++ (wordGT ++ X))) = false := by
        rw [joinLines_cons l2 ls']
        have h2 : wordGT.isPrefixOf
            (l2 ++ '\n' :: (joinLines ls' ++ (wordGT ++ X))) = false := by
          cases hb : wordGT.isPrefixOf
              (l2 ++ '\n' :: (joinLines ls' ++ (wordGT ++ X))) with
          | false => rfl
          | true =>
            exact absurd (isPrefixOf_line_of_ext wordGT wordGT_no_nl l2 _ hl2.1 hb)
              (by simp [hl2.2])
        have hassoc : (l2 ++ '\n' :: joinLines ls') ++ (wordGT ++ X)
            = l2 ++ '\n' :: (joinLines ls' ++ (wordGT ++ X)) := by simp
        simp [List.isPrefixOf, hassoc, h2]
      rw [findSub_cons_neg _ _ _ hhead]
      have ihv := ih (by simp) (fun x hx => hL x (by simp [hx]))
      show ((findSub gtPat _).map _).map _ = _
      rw [ihv]
      have hpos := joinLines_length_pos l2 ls'
      simp only [Option.map_some']
      congr 1
      simp only [List.length_append, List.length_cons]
      omega

/- ### Scanner lemmas -/

theorem matchAt_none (s : List Char) (h : wordLT.isPrefixOf s = false) : matchAt s = none := by
  simp [matchAt, h]

theorem matchAt_anchor (s : List Char) (m : RawMatch) (hm : matchAt s = some m) :
    wordLT.isPrefixOf s = true := by
  cases h : wordLT.isPrefixOf s with
  | true => rfl
  | false =>
    rw [matchAt_none _ h] at hm
    exact Option.noConfusion hm

theorem matchAt_len_pos (s : List Char) (m : RawMatch) (hm : matchAt s = some m) :
    1 ≤ m.len := by
  simp only [matchAt] at hm
  split at hm
  · split at hm
    · split at hm
      · exact Option.noConfusion hm
      · split at hm
        · exact Option.noConfusion hm
        · simp only [Option.some.injEq] at hm
          subst hm
          simp only []
          omega
    · exact Option.noConfusion hm
  · exact Option.noConfusion hm

theorem scanFuel_nil (f off : Nat) : scanFuel f [] off = [] := by
  cases f <;> rfl

theorem scanFuel_congr : ∀ (f1 : Nat) (s : List Char) (f2 off : Nat),
    s.length ≤ f1 → s.length ≤ f2 → scanFuel f1 s off = scanFuel f2 s off := by
  intro f1
  induction f1 with
  | zero =>
    intro s f2 off h1 _
    have hs : s = [] := List.length_eq_zero.mp (Nat.le_zero.mp h1)
    subst hs
    rw [scanFuel_nil, scanFuel_nil]
  | succ f ih =>
    intro s f2 off h1 h2
    cases s with
    | nil => rw [scanFuel_nil, scanFuel_nil]
    | cons c cs =>
      cases f2 with
      | zero => simp at h2
      | succ f2' =>
        simp only [List.length_cons] at h1 h2
        simp only [scanFuel]
        cases hA : matchAt (c :: cs) with
        | none =>
          simp only [hA]
          exact ih cs f2' (off + 1) (by omega) (by omega)
        | some m =>
          simp only [hA]
          have hl := matchAt_len_pos _ _ hA
          congr 1
          apply ih
          · simp only [List.length_drop, List.length_cons]
            omega
          · simp only [List.length_drop, List.length_cons]
            omega

theorem scan_skip : ∀ (pre rest : List Char) (off f : Nat),
    (pre ++ rest).length ≤ f →
    (∀ p, p < pre.length → wordLT.isPrefixOf ((pre ++ rest).drop p) = false) →
    scanFuel f (pre ++ rest) off = scanFuel rest.length rest (off + pre.length) := by
  intro pre
  induction pre with
  | nil =>
    intro rest off f hf h
    simp only [List.nil_append] at hf ⊢
    simp only [List.length_nil, Nat.add_zero]
    exact scanFuel_congr f rest rest.length off hf le_rfl
  | cons c pre' ih =>
    intro rest off f hf h
    have h0 : wordLT.isPrefixOf (c :: (pre' ++ rest)) = false := by
      have := h 0 (by simp)
      simpa using this
    simp only [List.cons_append, List.length_cons, List.length_append] at hf ⊢
    cases f with
    | zero => omega
    | succ f' =>
      simp only [scanFuel, matchAt_none _ h0]
      have h' : ∀ p, p < pre'.length →
          wordLT.isPrefixOf ((pre' ++ rest).drop p) = false := by
        intro p hp
        have := h (p + 1) (by simp only [List.length_cons]; omega)
        simpa using this
      rw [ih rest (off + 1) f' (by simp only [List.length_append]; omega) h']
      congr 1
      omega

theorem scan_hit (s : List Char) (m : RawMatch) (off f : Nat) (hf : s.length ≤ f)
    (hm : matchAt s = some m) :
    scanFuel f s off
      = { m with index := off } :: scanFuel (s.length - m.len) (s.drop m.len) (off + m.len) := by
  cases s with
  | nil =>
    have := matchAt_anchor _ _ hm
    simp [List.isPrefixOf, wordLT] at this
  | cons c cs =>
    cases f with
    | zero => simp at hf
    | succ f' =>
      simp only [scanFuel, hm]
      have hl := matchAt_len_pos _ _ hm
      simp only [List.length_cons] at hf
      congr 1
      apply scanFuel_congr
      · simp only [List.length_drop, List.length_cons]
        omega
      · simp only [List.length_drop]
        exact le_rfl

/-- Shape of an anchored match after the ours-marker line: everything
further only depends on the text after that line, plus the label length
inside `len`. -/
theorem matchAt_label_shape (lbl tail : List Char) (hl : ∀ c ∈ lbl, c ≠ '\n') :
    matchAt (wordLT ++ (lbl ++ '\n' :: tail))
      = match findSub sepPat tail with
        | none => none
        | some k1 =>
          match findSub gtPat (tail.drop (k1 + 9)) with
          | none => none
          | some k2 =>
            some { index := 0,
                   len := 7 + lbl.length + 1 + k1 + 9 + k2 + 8
                     + (((tail.drop (k1 + 9)).drop (k2 + 8)).takeWhile (· != '\n')).length,
                   ours := tail.take k1,
                   theirs := (tail.drop (k1 + 9)).take k2 } := by
  have hpre := isPrefixOf_append_self wordLT (lbl ++ '\n' :: tail)
  have h7 : (wordLT ++ (lbl ++ '\n' :: tail)).drop 7 = lbl ++ '\n' :: tail :=
    drop_len_append wordLT _
  have htw : (lbl ++ '\n' :: tail).takeWhile (· != '\n') = lbl :=
    takeWhile_line lbl ('\n' :: tail) hl (Or.inr rfl)
  have hlen : lbl.length < (lbl ++ '\n' :: tail).length := by
    simp only [List.length_append, List.length_cons]
    omega
  have h2 : (lbl ++ '\n' :: tail).drop (lbl.length + 1) = tail := by
    have h := drop_len_append (lbl ++ ['\n']) tail
    simp only [List.append_assoc, List.singleton_append, List.length_append,
      List.length_singleton] at h
    exact h
  simp only [matchAt, hpre, h7, htw, hlen, h2, eq_self_iff_true, if_true]

/-- An anchored match at the start of a well-formed triple succeeds and
matches exactly the triple's text, capturing the two variant bodies.
The text after the triple must open with a newline (or be empty), since
the final `[^\n]*` of the regex would otherwise extend the match. -/
theorem matchAt_block (t : Triple) (rest : List Char)
    (hlbl : ∀ c ∈ t.lbl, c ≠ '\n')
    (hlbl2 : ∀ c ∈ t.lbl2, c ≠ '\n')
    (hon : t.oursLines ≠ [])
    (hol : ∀ l ∈ t.oursLines, (∀ c ∈ l, c ≠ '\n') ∧ l ≠ wordEq)
    (htn : t.theirsLines ≠ [])
    (htl : ∀ l ∈ t.theirsLines, (∀ c ∈ l, c ≠ '\n') ∧ wordGT.isPrefixOf l = false)
    (hrest : rest = [] ∨ rest.head? = some '\n') :
    matchAt (blockText t ++ rest)
      = some { index := 0, len := (blockText t).length,
               ours := bodyText t.oursLines, theirs := bodyText t.theirsLines } := by
  have hoJ : joinLines t.oursLines = bodyText t.oursLines ++ ['\n'] :=
    joinLines_eq_body _ hon
  have htJ : joinLines t.theirsLines = bodyText t.theirsLines ++ ['\n'] :=
    joinLines_eq_body _ htn
  have hoP : (joinLines t.oursLines).length = (bodyText t.oursLines).length + 1 := by
    rw [hoJ]
    simp
  have htP : (joinLines t.theirsLines).length = (bodyText t.theirsLines).length + 1 := by
    rw [htJ]
    simp
  have hshape : blockText t ++ rest
      = wordLT ++ (t.lbl ++ '\n' :: (joinLines t.oursLines ++ (wordEq ++ '\n' ::
          (joinLines t.theirsLines ++ (wordGT ++ (t.lbl2 ++ rest)))))) := by
    simp [blockText, List.append_assoc]
  rw [hshape, matchAt_label_shape _ _ hlbl]
  have hk1 : findSub sepPat (joinLines t.oursLines ++ (wordEq ++ '\n' ::
      (joinLines t.theirsLines ++ (wordGT ++ (t.lbl2 ++ rest)))))
      = some ((joinLines t.oursLines).length - 1) :=
    sepFind _ _ hon hol
  have hdrop1 : (joinLines t.oursLines ++ (wordEq ++ '\n' ::
      (joinLines t.theirsLines ++ (wordGT ++ (t.lbl2 ++ rest))))).drop
        ((joinLines t.oursLines).length - 1 + 9)
      = joinLines t.theirsLines ++ (wordGT ++ (t.lbl2 ++ rest)) := by
    have harr : joinLines t.oursLines ++ (wordEq ++ '\n' ::
        (joinLines t.theirsLines ++ (wordGT ++ (t.lbl2 ++ rest))))
        = (joinLines t.oursLines ++ (wordEq ++ ['\n']))
            ++ (joinLines t.theirsLines ++ (wordGT ++ (t.lbl2 ++ rest))) := by
      simp
    have hlen9 : (joinLines t.oursLines).length - 1 + 9
        = (joinLines t.oursLines ++ (wordEq ++ ['\n'])).length := by
      simp only [List.length_append, wordEq, List.length_cons, List.length_singleton,
        List.length_nil]
      omega
    rw [harr, hlen9, drop_len_append]
  have hk2 : findSub gtPat (joinLines t.theirsLines ++ (wordGT ++ (t.lbl2 ++ rest)))
      = some ((joinLines t.theirsLines).length - 1) :=
    gtFind _ _ htn htl
  have htake1 : (joinLines t.oursLines ++ (wordEq ++ '\n' ::
      (joinLines t.theirsLines ++ (wordGT ++ (t.lbl2 ++ rest))))).take
        ((joinLines t.oursLines).length - 1)
      = bodyText t.oursLines := by
    have harr : joinLines t.oursLines ++ (wordEq ++ '\n' ::
        (joinLines t.theirsLines ++ (wordGT ++ (t.lbl2 ++ rest))))
        = bodyText t.oursLines ++ ('\n' :: (wordEq ++ '\n' ::
            (joinLines t.theirsLines ++ (wordGT ++ (t.lbl2 ++ rest))))) := by
      rw [hoJ]
      simp
    have hl1 : (joinLines t.oursLines).length - 1 = (bodyText t.oursLines).length := by
      omega
    rw [harr, hl1, take_len_append]
  have htake2 : (joinLines t.theirsLines ++ (wordGT ++ (t.lbl2 ++ rest))).take
        ((joinLines t.theirsLines).length - 1)
      = bodyText t.theirsLines := by
    have harr : joinLines t.theirsLines ++ (wordGT ++ (t.lbl2 ++ rest))
        = bodyText t.theirsLines ++ ('\n' :: (wordGT ++ (t.lbl2 ++ rest))) := by
      rw [htJ]
      simp
    have hl1 : (joinLines t.theirsLines).length - 1 = (bodyText t.theirsLines).length := by
      omega
    rw [harr, hl1, take_len_append]
  have hdrop2 : (joinLines t.theirsLines ++ (wordGT ++ (t.lbl2 ++ rest))).drop
        ((joinLines t.theirsLines).length - 1 + 8)
      = t.lbl2 ++ rest := by
    have harr : joinLines t.theirsLines ++ (wordGT ++ (t.lbl2 ++ rest))
        = (joinLines t.theirsLines ++ wordGT) ++ (t.lbl2 ++ rest) := by
      simp
    have hlen8 : (joinLines t.theirsLines).length - 1 + 8
        = (joinLines t.theirsLines ++ wordGT).length := by
      simp only [List.length_append, wordGT, List.length_cons, List.length_nil]
      omega
    rw [harr, hlen8, drop_len_append]
  have htwEnd : (t.lbl2 ++ rest).takeWhile (· != '\n') = t.lbl2 :=
    takeWhile_line _ _ hlbl2 hrest
  simp only [hk1, hdrop1, hk2, htake1, htake2, hdrop2, htwEnd, Option.some.injEq]
  have hblen : (blockText t).length
      = 7 + t.lbl.length + 1 + (joinLines t.oursLines).length + 8
        + (joinLines t.theirsLines).length + 7 + t.lbl2.length := by
    simp only [blockText, List.length_append, List.length_cons, wordLT, wordEq, wordGT,
      List.length_nil]
    omega
  have hfin : 7 + t.lbl.length + 1 + ((joinLines t.oursLines).length - 1) + 9
      + ((joinLines t.theirsLines).length - 1) + 8 + t.lbl2.length
      = (blockText t).length := by
    omega
  rw [hfin]

/- ### From executable side conditions to propositional ones -/

theorem all_ne_nl (l : List Char) (h : l.all (· != '\n') = true) : ∀ c ∈ l, c ≠ '\n' := by
  intro c hc
  have := List.all_eq_true.mp h c hc
  simpa [bne_iff_ne] using this

theorem tripleShape_spec (t : Triple) (h : tripleShape t = true) :
    (∀ c ∈ t.lbl, c ≠ '\n') ∧ (∀ c ∈ t.lbl2, c ≠ '\n')
      ∧ (∀ l ∈ t.oursLines, (∀ c ∈ l, c ≠ '\n') ∧ l ≠ wordEq)
      ∧ (∀ l ∈ t.theirsLines, (∀ c ∈ l, c ≠ '\n') ∧ wordGT.isPrefixOf l = false) := by
  simp only [tripleShape, Bool.and_eq_true] at h
  obtain ⟨⟨⟨h1, h2⟩, h3⟩, h4⟩ := h
  refine ⟨all_ne_nl _ h1, all_ne_nl _ h2, ?_, ?_⟩
  · intro l hl
    have hx := List.all_eq_true.mp h3 l hl
    simp only [Bool.and_eq_true] at hx
    refine ⟨all_ne_nl _ hx.1, ?_⟩
    have := hx.2
    simp only [Bool.not_eq_true'] at this
    exact fun he => by simp [he] at this
  · intro l hl
    have hx := List.all_eq_true.mp h4 l hl
    simp only [Bool.and_eq_true] at hx
    refine ⟨all_ne_nl _ hx.1, ?_⟩
    have := hx.2
    simpa [Bool.not_eq_true'] using this

theorem tripleOK_spec (t : Triple) (h : tripleOK t = true) :
    tripleShape t = true ∧ t.oursLines ≠ [] ∧ t.theirsLines ≠ [] := by
  simp only [tripleOK, Bool.and_eq_true] at h
  obtain ⟨⟨hs, ho⟩, ht⟩ := h
  refine ⟨hs, ?_, ?_⟩
  · intro he
    rw [he] at ho
    simp at ho
  · intro he
    rw [he] at ht
    simp at ht

theorem anchorFree_spec (s : List Char) (n : Nat) (h : anchorFree s n = true) :
    ∀ p, p < n → wordLT.isPrefixOf (s.drop p) = false := by
  intro p hp
  have := List.all_eq_true.mp h p (List.mem_range.mpr hp)
  simpa [Bool.not_eq_true'] using this

theorem fillerHead_spec (fil after : List Char) (h : fillerHead fil after = true) :
    fil ++ after = [] ∨ (fil ++ after).head? = some '\n' := by
  simp only [fillerHead, Bool.or_eq_true, Bool.and_eq_true] at h
  rcases h with h | ⟨h1, h2⟩
  · right
    have : fil.head? = some '\n' := by simpa using h
    cases fil with
    | nil => simp at this
    | cons c cs =>
      simp at this
      subst this
      simp
  · left
    have hf : fil = [] := by
      cases fil with
      | nil => rfl
      | cons c cs => simp [List.isEmpty] at h1
    have ha : after = [] := by
      cases after with
      | nil => rfl
      | cons c cs => simp [List.isEmpty] at h2
    rw [hf, ha]
    rfl

/- ### The scanner on generated texts -/

theorem scan_blocks : ∀ (bs : List (Triple × List Char)) (off f : Nat),
    (blocksText bs).length ≤ f → benignBlocks bs = true →
    scanFuel f (blocksText bs) off = expectedFrom off bs := by
  intro bs
  induction bs with
  | nil =>
    intro off f _ _
    simp only [blocksText]
    rw [scanFuel_nil]
    rfl
  | cons tf rest ih =>
    obtain ⟨t, fil⟩ := tf
    intro off f hf hb
    simp only [benignBlocks, Bool.and_eq_true] at hb
    obtain ⟨⟨⟨hOK, hFH⟩, hAF⟩, hB⟩ := hb
    have hOKs := tripleOK_spec t hOK
    have hS := tripleShape_spec t hOKs.1
    have hrest := fillerHead_spec _ _ hFH
    have hMB := matchAt_block t (fil ++ blocksText rest) hS.1 hS.2.1 hOKs.2.1
      hS.2.2.1 hOKs.2.2 hS.2.2.2 hrest
    simp only [blocksText] at hf ⊢
    rw [scan_hit _ _ off f hf hMB]
    have hdrop : (blockText t ++ (fil ++ blocksText rest)).drop (blockText t).length
        = fil ++ blocksText rest := drop_len_append _ _
    rw [hdrop]
    have harith : (blockText t ++ (fil ++ blocksText rest)).length - (blockText t).length
        = (fil ++ blocksText rest).length := by
      simp only [List.length_append]
      omega
    rw [harith]
    rw [scan_skip fil (blocksText rest) (off + (blockText t).length)
      (fil ++ blocksText rest).length le_rfl (anchorFree_spec _ _ hAF)]
    rw [ih (off + (blockText t).length + fil.length) (blocksText rest).length le_rfl hB]
    rfl

theorem conflictMatches_build (pre : List Char) (bs : List (Triple × List Char))
    (hpre : anchorFree (pre ++ blocksText bs) pre.length = true)
    (hbs : benignBlocks bs = true) :
    conflictMatches (buildText pre bs) = expectedFrom pre.length bs := by
  unfold conflictMatches buildText
  rw [scan_skip pre (blocksText bs) 0 (pre ++ blocksText bs).length le_rfl
    (anchorFree_spec _ _ hpre)]
  rw [scan_blocks bs (0 + pre.length) (blocksText bs).length le_rfl hbs]
  simp

/- ### Shape of the expected match list -/

theorem expectedFrom_length : ∀ (off : Nat) (bs : List (Triple × List Char)),
    (expectedFrom off bs).length = bs.length := by
  intro off bs
  induction bs generalizing off with
  | nil => rfl
  | cons tf rest ih =>
    obtain ⟨t, fil⟩ := tf
    simp [expectedFrom, ih]

theorem expectedFrom_index_ge : ∀ (off : Nat) (bs : List (Triple × List Char))
    (m : RawMatch), m ∈ expectedFrom off bs → off ≤ m.index := by
  intro off bs
  induction bs generalizing off with
  | nil =>
    intro m hm
    simp [expectedFrom] at hm
  | cons tf rest ih =>
    obtain ⟨t, fil⟩ := tf
    intro m hm
    simp only [expectedFrom, List.mem_cons] at hm
    rcases hm with h | h
    · rw [h]
    · have := ih _ m h
      omega

theorem expectedFrom_pairwise (off : Nat) (bs : List (Triple × List Char)) :
    List.Pairwise (fun a b => a.index + a.len ≤ b.index) (expectedFrom off bs) := by
  induction bs generalizing off with
  | nil => simp [expectedFrom]
  | cons tf rest ih =>
    obtain ⟨t, fil⟩ := tf
    simp only [expectedFrom]
    refine List.Pairwise.cons ?_ (ih _)
    intro b hb
    have := expectedFrom_index_ge _ _ _ hb
    show off + (blockText t).length ≤ b.index
    omega

theorem expectedFrom_slice : ∀ (bs : List (Triple × List Char)) (X : List Char),
    List.Forall₂ (fun m tf => ((X ++ blocksText bs).drop m.index).take m.len = blockText tf.1
        ∧ m.ours = bodyText tf.1.oursLines ∧ m.theirs = bodyText tf.1.theirsLines)
      (expectedFrom X.length bs) bs := by
  intro bs
  induction bs with
  | nil =>
    intro X
    simp only [expectedFrom]
    exact List.Forall₂.nil
  | cons tf rest ih =>
    obtain ⟨t, fil⟩ := tf
    intro X
    simp only [expectedFrom, blocksText]
    refine List.Forall₂.cons ⟨?_, rfl, rfl⟩ ?_
    · show ((X ++ (blockText t ++ (fil ++ blocksText rest))).drop X.length).take
          (blockText t).length = blockText t
      rw [drop_len_append]
      exact take_len_append _ _
    · have hX : X ++ (blockText t ++ (fil ++ blocksText rest))
          = (X ++ blockText t ++ fil) ++ blocksText rest := by
        simp
      have hlen : X.length + (blockText t).length + fil.length
          = (X ++ blockText t ++ fil).length := by
        simp [List.length_append]
        omega
      rw [hlen, hX]
      exact ih (X ++ blockText t ++ fil)

/- ### Every reported match starts at an ours-marker occurrence -/

theorem scan_mem_anchor : ∀ (f : Nat) (s : List Char) (off : Nat) (m : RawMatch),
    m ∈ scanFuel f s off →
    off ≤ m.index ∧ wordLT.isPrefixOf (s.drop (m.index - off)) = true := by
  intro f
  induction f with
  | zero =>
    intro s off m hm
    simp [scanFuel] at hm
  | succ f ih =>
    intro s off m hm
    cases s with
    | nil =>
      rw [scanFuel_nil] at hm
      simp at hm
    | cons c cs =>
      simp only [scanFuel] at hm
      cases hA : matchAt (c :: cs) with
      | none =>
        simp only [hA] at hm
        have h := ih cs (off + 1) m hm
        refine ⟨by omega, ?_⟩
        have hidx : m.index - off = (m.index - (off + 1)) + 1 := by omega
        rw [hidx, List.drop_succ_cons]
        exact h.2
      | some m0 =>
        simp only [hA, List.mem_cons] at hm
        rcases hm with h | h
        · subst h
          refine ⟨le_rfl, ?_⟩
          have h0 : ({ m0 with index := off } : RawMatch).index - off = 0 := by simp
          rw [h0, List.drop_zero]
          exact matchAt_anchor _ _ hA
        · have hr := ih _ (off + m0.len) m h
          have hlp := matchAt_len_pos _ _ hA
          refine ⟨by omega, ?_⟩
          have h2 := hr.2
          rw [List.drop_drop] at h2
          have he : m0.len + (m.index - (off + m0.len)) = m.index - off := by omega
          rw [he] at h2
          exact h2

/- ### Retry loop only looks at the first MAX_RETRIES attempts -/

theorem callLoop_congr (a b : Nat → CallAttempt) : ∀ (r i : Nat),
    (∀ j, i ≤ j → j < i + r → a j = b j) → callLoop a i r = callLoop b i r := by
  intro r
  induction r with
  | zero => intro i _; rfl
  | succ r ih =>
    intro i h
    simp only [callLoop]
    rw [h i le_rfl (by omega)]
    cases b i with
    | httpOk p => rfl
    | httpError e =>
      by_cases hr : r = 0
      · subst hr
        simp
      · simp only [if_neg hr]
        rw [ih (i + 1) (fun j h1 h2 => h j (by omega) (by omega))]

/- ### Orchestrator-loop lemmas -/

theorem runLoop_flag_true (fs : Fs) (oracle : ResolverOracle) :
    ∀ (paths : List (List Char)) (k : Nat),
      (runLoop fs oracle paths k true).exitFailure = true := by
  intro paths
  induction paths with
  | nil => intro k; rfl
  | cons p rest ih =>
    intro k
    cases hfs : fs p with
    | none => simp [runLoop, hfs]
    | some pk =>
      cases pk with
      | dir =>
        simp only [runLoop, hfs]
        exact ih k
      | file c =>
        simp only [runLoop, hfs]
        cases hres : resolveConflictsInFile oracle k c with
        | mk fo k' =>
          cases fo with
          | noConflicts =>
            simp only [hres]
            exact ih k'
          | wroteContent c' =>
            simp only [hres]
            exact ih k'
          | regionFailure kind d =>
            simp only [hres]

theorem warn_in_events_failure (fs : Fs) (oracle : ResolverOracle) :
    ∀ (paths : List (List Char)) (k : Nat) (flag : Bool) (q : List Char),
      Event.warnSubmodule q ∈ (runLoop fs oracle paths k flag).events →
      (runLoop fs oracle paths k flag).exitFailure = true := by
  intro paths
  induction paths with
  | nil =>
    intro k flag q h
    simp [runLoop] at h
  | cons p rest ih =>
    intro k flag q h
    cases hfs : fs p with
    | none => simp [runLoop, hfs]
    | some pk =>
      cases pk with
      | dir =>
        simp only [runLoop, hfs]
        exact runLoop_flag_true fs oracle rest k
      | file c =>
        simp only [runLoop, hfs] at h ⊢
        cases hres : resolveConflictsInFile oracle k c with
        | mk fo k' =>
          cases fo with
          | noConflicts =>
            simp only [hres] at h ⊢
            have hmem : Event.warnSubmodule q ∈ (runLoop fs oracle rest k' flag).events := by
              simp only [List.mem_cons] at h
              rcases h with h | h
              · exact absurd h (by simp)
              · exact h
            exact ih k' flag q hmem
          | wroteContent c' =>
            simp only [hres] at h ⊢
            have hmem : Event.warnSubmodule q ∈ (runLoop fs oracle rest k' flag).events := by
              simp only [List.mem_cons] at h
              rcases h with h | h
              · exact absurd h (by simp)
              rcases h with h | h
              · exact absurd h (by simp)
              · exact h
            exact ih k' flag q hmem
          | regionFailure kind d =>
            simp only [hres]

/- ### Small auxiliary lemmas for the order-equivalence claim -/

theorem eq_dropLast_append_of_getLast (l : List RawMatch) (m : RawMatch)
    (h : l.getLast? = some m) : l = l.dropLast ++ [m] := by
  have hne : l ≠ [] := by
    intro he
    rw [he] at h
    simp at h
  have h2 := List.dropLast_append_getLast hne
  have h3 : l.getLast hne = m := by
    rw [List.getLast?_eq_getLast l hne] at h
    exact Option.some_inj.mp h
  rw [← h3]
  exact h2.symm

theorem stableUnder_cons (r : List Char) (rs : List (List Char)) (content : List Char)
    (h : stableUnder (r :: rs) content = true) :
    ∃ m, (conflictMatches content).getLast? = some m
      ∧ conflictMatches (spliceAt content m.index m.len r)
          = (conflictMatches content).dropLast
      ∧ stableUnder rs (spliceAt content m.index m.len r) = true := by
  simp only [stableUnder] at h
  cases hL : (conflictMatches content).getLast? with
  | none =>
    simp only [hL] at h
    exact Bool.noConfusion h
  | some m =>
    simp only [hL, Bool.and_eq_true, decide_eq_true_eq] at h
    exact ⟨m, rfl, h.1, h.2⟩

theorem matchAt_label_isSome (lbl lbl' tail : List Char)
    (h1 : ∀ c ∈ lbl, c ≠ '\n') (h2 : ∀ c ∈ lbl', c ≠ '\n') :
    (matchAt (wordLT ++ (lbl ++ '\n' :: tail))).isSome
      = (matchAt (wordLT ++ (lbl' ++ '\n' :: tail))).isSome := by
  rw [matchAt_label_shape _ _ h1, matchAt_label_shape _ _ h2]
  split
  · rfl
  · split
    · rfl
    · rfl

/- ### Claim theorems -/

/-- C7: on the input text `"a\n<<<<<<< HEAD\nfoo\n=======\nbar\n>>>>>>> branch\nb\n"`
the parser produces exactly one region with oursText `"foo"` and theirsText
`"bar"` (its sourceSpan starting at offset 2 with length 43, i.e. the whole
marked block), and with a resolver stub returning `"baz"` the final spliced
content is `"a\nbaz\nb\n"`, which the file resolver writes back. -/
theorem C7_concrete_scenario :
    conflictMatches txtC7
        = [{ index := 2, len := 43, ours := ("foo").data, theirs := ("bar").data }]
      ∧ resolveConflictsInFile oracleBaz 0 txtC7
        = (.wroteContent (("a\nbaz\nb\n").data), 1) := by
  decide

/-- C3: the resolver call makes at most `MAX_RETRIES = 3` attempts.  If the
external call fails on attempts 1 and 2 and succeeds on attempt 3, the
successful payload is returned, exactly 2 delays of `1000 * 2 ^ attempt`
milliseconds were induced, and the second delay is strictly longer than
the first.  If all 3 attempts fail, the last error surfaces (wrapped as a
NETWORK failure by `getGeminiResolution`), again after exactly 3 attempts,
and no 4th attempt is made: the result of `callGeminiAPI` only depends on
the first `MAX_RETRIES` entries of the attempt sequence. -/
theorem C3_retry_law (a b : Nat → CallAttempt) (e0 e1 : List Char) (p : GPayload)
    (f0 f1 f2 : List Char)
    (ha0 : a 0 = .httpError e0) (ha1 : a 1 = .httpError e1) (ha2 : a 2 = .httpOk p)
    (hb0 : b 0 = .httpError f0) (hb1 : b 1 = .httpError f1) (hb2 : b 2 = .httpError f2) :
    callGeminiAPI a = ⟨.httpOk p, 3, [1000 * 2 ^ 0, 1000 * 2 ^ 1]⟩
      ∧ 1000 * 2 ^ 0 < 1000 * 2 ^ 1
      ∧ callGeminiAPI b = ⟨.httpError f2, 3, [1000 * 2 ^ 0, 1000 * 2 ^ 1]⟩
      ∧ (getGeminiResolution b).1 = .failure .network f2
      ∧ (∀ a' : Nat → CallAttempt, (∀ j, j < MAX_RETRIES → a' j = a j) →
          callGeminiAPI a' = callGeminiAPI a) := by
  have hstep3a : callLoop a 0 3 = ⟨.httpOk p, 3, [1000 * 2 ^ 0, 1000 * 2 ^ 1]⟩ := by
    rw [show (3 : Nat) = 2 + 1 from rfl]
    simp [callLoop, ha0, ha1, ha2]
  have hstep3b : callLoop b 0 3 = ⟨.httpError f2, 3, [1000 * 2 ^ 0, 1000 * 2 ^ 1]⟩ := by
    rw [show (3 : Nat) = 2 + 1 from rfl]
    simp [callLoop, hb0, hb1, hb2]
  refine ⟨hstep3a, by norm_num, hstep3b, ?_, ?_⟩
  · show (getGeminiResolution b).1 = _
    have : callGeminiAPI b = ⟨.httpError f2, 3, [1000 * 2 ^ 0, 1000 * 2 ^ 1]⟩ := hstep3b
    simp [getGeminiResolution, this]
  · intro a' h
    show callLoop a' 0 MAX_RETRIES = callLoop a 0 MAX_RETRIES
    exact callLoop_congr a' a MAX_RETRIES 0
      (fun j h1 h2 => h j (by simpa using h2))

/-- C3 witness: concrete attempt sequences, one failing twice then
succeeding, the other failing three times. -/
theorem C3_retry_law_witness :
    attemptsFFS 0 = .httpError (("boom").data)
      ∧ attemptsFFS 2 = .httpOk payloadGood
      ∧ attemptsFFF 2 = .httpError (("down").data)
      ∧ (callGeminiAPI attemptsFFS = ⟨.httpOk payloadGood, 3, [1000 * 2 ^ 0, 1000 * 2 ^ 1]⟩
          ∧ 1000 * 2 ^ 0 < 1000 * 2 ^ 1
          ∧ callGeminiAPI attemptsFFF
              = ⟨.httpError (("down").data), 3, [1000 * 2 ^ 0, 1000 * 2 ^ 1]⟩
          ∧ (getGeminiResolution attemptsFFF).1 = .failure .network (("down").data)
          ∧ (∀ a' : Nat → CallAttempt, (∀ j, j < MAX_RETRIES → a' j = attemptsFFS j) →
              callGeminiAPI a' = callGeminiAPI attemptsFFS)) :=
  ⟨by decide, by decide, by decide,
    C3_retry_law attemptsFFS attemptsFFF (("boom").data) (("boom").data) payloadGood
      (("down").data) (("down").data) (("down").data)
      (by decide) (by decide) (by decide) (by decide) (by decide) (by decide)⟩

/-- C8: a successful (2xx) call whose payload does not contain the
expected text field yields `Failure(MALFORMED_RESPONSE, …)` with no
further attempt (the call trace still records exactly the one successful
attempt); when the field is present, the resolved text handed back is the
payload text with leading and trailing whitespace trimmed. -/
theorem C8_malformed_response (a b : Nat → CallAttempt) (pa pb : GPayload) (tb : List Char)
    (ha : a 0 = .httpOk pa) (hpa : extractText pa = none)
    (hb : b 0 = .httpOk pb) (hpb : extractText pb = some tb) :
    getGeminiResolution a
        = (.failure .malformedResponse malformedDetail, ⟨.httpOk pa, 1, []⟩)
      ∧ (getGeminiResolution b).1 = .resolvedText (trimChars tb) := by
  have hca : callGeminiAPI a = ⟨.httpOk pa, 1, []⟩ := by
    show callLoop a 0 MAX_RETRIES = _
    rw [show MAX_RETRIES = 2 + 1 from rfl]
    simp [callLoop, ha]
  have hcb : callGeminiAPI b = ⟨.httpOk pb, 1, []⟩ := by
    show callLoop b 0 MAX_RETRIES = _
    rw [show MAX_RETRIES = 2 + 1 from rfl]
    simp [callLoop, hb]
  constructor
  · simp [getGeminiResolution, hca, hpa]
  · simp [getGeminiResolution, hcb, hpb]

/-- C8 witness: a malformed payload (no candidates) and a good payload
whose text field carries surrounding whitespace. -/
theorem C8_malformed_response_witness :
    extractText payloadBad = none
      ∧ extractText payloadGood = some ((" hi ").data)
      ∧ (getGeminiResolution attemptsBad
            = (.failure .malformedResponse malformedDetail, ⟨.httpOk payloadBad, 1, []⟩)
          ∧ (getGeminiResolution attemptsGood).1
            = .resolvedText (trimChars ((" hi ").data))) :=
  ⟨by decide, by decide,
    C8_malformed_response attemptsBad attemptsGood payloadBad payloadGood ((" hi ").data)
      (by decide) (by decide) (by decide) (by decide)⟩

/-- C10: when `fs.stat` throws for a conflicted path (the path does not
exist, as in a delete/modify conflict), the error propagates out of the
per-path loop: the path is neither skipped nor recorded as a submodule,
no event is emitted from that point on (no subsequent path is processed),
and the run exits with a failure signal. -/
theorem C10_stat_error_aborts (fs : Fs) (oracle : ResolverOracle) (p : List Char)
    (rest : List (List Char)) (k : Nat) (flag : Bool) (hp : fs p = none) :
    runLoop fs oracle (p :: rest) k flag = ⟨[], true⟩ := by
  simp [runLoop, hp]

/-- C10 witness: a path missing from the file system aborts the run even
though a resolvable file follows it in the list. -/
theorem C10_stat_error_aborts_witness :
    fsPlain (("g").data) = none
      ∧ runLoop fsPlain oracleBaz [("g").data, ("f").data] 0 false = ⟨[], true⟩ :=
  ⟨by decide,
    C10_stat_error_aborts fsPlain oracleBaz (("g").data) [("f").data] 0 false (by decide)⟩

/-- C1 counterexample: for a file whose text has no conflict markers at
all, the parser finds nothing and no write-back happens — but the claim
that no stage call is made for that file is false: `main` runs `git add`
unconditionally after `resolveConflictsInFile` returns, so the staged
event is emitted for the zero-conflict file `f`. -/
theorem C1_zero_regions_counterexample :
    conflictMatches txtPlain = []
      ∧ Event.staged (("f").data) ∈ (runMain fsPlain oracleBaz [("f").data]).events := by
  decide

/-- C1 (amended): for every file whose text contains zero conflict-marker
triples (the parser returns an empty region sequence), FileResolver
returns without any write-back and without consuming a resolver call, but
the orchestrator still performs the stage call for that file: the
processing step emits exactly the staged event and continues with the
remaining paths. -/
theorem C1_zero_regions_no_write (fs : Fs) (oracle : ResolverOracle) (p : List Char)
    (rest : List (List Char)) (k : Nat) (flag : Bool) (c : List Char)
    (hp : fs p = some (.file c)) (hzero : conflictMatches c = []) :
    resolveConflictsInFile oracle k c = (.noConflicts, k)
      ∧ runLoop fs oracle (p :: rest) k flag
        = ⟨.staged p :: (runLoop fs oracle rest k flag).events,
           (runLoop fs oracle rest k flag).exitFailure⟩ := by
  have hres : resolveConflictsInFile oracle k c = (.noConflicts, k) := by
    simp [resolveConflictsInFile, hzero]
  refine ⟨hres, ?_⟩
  simp only [runLoop, hp, hres]

/-- C1 witness: the concrete marker-free file `f`. -/
theorem C1_zero_regions_no_write_witness :
    fsPlain (("f").data) = some (.file txtPlain)
      ∧ conflictMatches txtPlain = []
      ∧ (resolveConflictsInFile oracleBaz 0 txtPlain = (.noConflicts, 0)
          ∧ runLoop fsPlain oracleBaz [("f").data] 0 false
            = ⟨.staged (("f").data) :: (runLoop fsPlain oracleBaz [] 0 false).events,
               (runLoop fsPlain oracleBaz [] 0 false).exitFailure⟩) :=
  ⟨by decide, by decide,
    C1_zero_regions_no_write fsPlain oracleBaz (("f").data) [] 0 false txtPlain
      (by decide) (by decide)⟩

/-- C5: a region resolution failure stops the region loop immediately (a
failing call on the first region of the processing order ends
`resolveRegions` without touching the remaining regions), and at the run
level a file whose resolution ends in a region failure (PARTIAL_FAILURE)
produces no write-back and no stage call for that file, emits no further
event, processes no subsequent path, and exits with a failure signal. -/
theorem C5_region_failure_aborts (oracle : ResolverOracle) (k0 : Nat) (content : List Char)
    (m : RawMatch) (ms : List RawMatch) (kind : FailKind) (d : List Char)
    (fs : Fs) (p : List Char) (rest : List (List Char)) (k : Nat) (flag : Bool)
    (c : List Char)
    (hfail : oracle k0 m.ours m.theirs = .failure kind d)
    (hp : fs p = some (.file c))
    (hfile : resolveConflictsInFile oracle k c = (.regionFailure kind d, k)) :
    resolveRegions oracle k0 content (m :: ms) = .failedAt kind d
      ∧ runLoop fs oracle (p :: rest) k flag = ⟨[], true⟩ := by
  constructor
  · simp [resolveRegions, hfail]
  · simp [runLoop, hp, hfile]

/-- C5 witness: the claim scenario — a file `t` with 2 regions whose
second resolver call returns a malformed payload, followed by a further
conflicted path `u` that is never processed. -/
theorem C5_region_failure_aborts_witness :
    oracleFailSecond 1 (("x").data) (("y").data)
        = .failure .malformedResponse (("bad").data)
      ∧ fsTwoFiles (("t").data) = some (.file txtTwo)
      ∧ resolveConflictsInFile oracleFailSecond 0 txtTwo
          = (.regionFailure .malformedResponse (("bad").data), 0)
      ∧ (resolveRegions oracleFailSecond 1 txtTwo
            [{ index := 0, len := 31, ours := ("x").data, theirs := ("y").data }]
            = .failedAt .malformedResponse (("bad").data)
          ∧ runLoop fsTwoFiles oracleFailSecond [("t").data, ("u").data] 0 false
            = ⟨[], true⟩) :=
  ⟨by decide, by decide, by decide,
    C5_region_failure_aborts oracleFailSecond 1 txtTwo
      { index := 0, len := 31, ours := ("x").data, theirs := ("y").data } []
      .malformedResponse (("bad").data) fsTwoFiles (("t").data) [("u").data] 0 false
      txtTwo (by decide) (by decide) (by decide)⟩

/-- C6: a path classified as a directory is never passed to FileResolver:
its step emits only the submodule warning, consumes no resolver call, and
processing continues with the remaining paths (with the unresolved flag
set); and whenever a submodule warning was recorded anywhere in a run,
the run's final signal is failure — even when every plain-file path
resolved and was staged successfully. -/
theorem C6_submodule_blocks_success (fs : Fs) (oracle : ResolverOracle) (p : List Char)
    (rest : List (List Char)) (k : Nat) (flag : Bool)
    (paths : List (List Char)) (k' : Nat) (flag' : Bool) (q : List Char)
    (hdir : fs p = some .dir)
    (hmem : Event.warnSubmodule q ∈ (runLoop fs oracle paths k' flag').events) :
    runLoop fs oracle (p :: rest) k flag
        = ⟨.warnSubmodule p :: (runLoop fs oracle rest k true).events,
           (runLoop fs oracle rest k true).exitFailure⟩
      ∧ (runLoop fs oracle paths k' flag').exitFailure = true := by
  constructor
  · simp only [runLoop, hdir]
  · exact warn_in_events_failure fs oracle paths k' flag' q hmem

/-- C6 witness: the claim scenario — path list `[dirA, file.txt]` where
`dirA` is a directory and `file.txt` has one resolvable region:
`file.txt` is resolved and staged, `dirA` is recorded unresolved, and the
final signal is failure despite `file.txt` succeeding. -/
theorem C6_submodule_blocks_success_witness :
    fsDirAndFile (("dirA").data) = some .dir
      ∧ Event.warnSubmodule (("dirA").data)
          ∈ (runLoop fsDirAndFile oracleBaz [("dirA").data, ("file.txt").data] 0 false).events
      ∧ Event.staged (("file.txt").data)
          ∈ (runLoop fsDirAndFile oracleBaz [("dirA").data, ("file.txt").data] 0 false).events
      ∧ (runLoop fsDirAndFile oracleBaz
            ([("dirA").data] ++ [("file.txt").data]) 0 false
          = ⟨.warnSubmodule (("dirA").data)
                :: (runLoop fsDirAndFile oracleBaz [("file.txt").data] 0 true).events,
             (runLoop fsDirAndFile oracleBaz [("file.txt").data] 0 true).exitFailure⟩
          ∧ (runLoop fsDirAndFile oracleBaz
              [("dirA").data, ("file.txt").data] 0 false).exitFailure = true) :=
  ⟨by decide, by decide, by decide,
    C6_submodule_blocks_success fsDirAndFile oracleBaz (("dirA").data)
      [("file.txt").data] 0 false [("dirA").data, ("file.txt").data] 0 false
      (("dirA").data) (by decide) (by decide)⟩

/-- C9 counterexample: on the text `"x<<<<<<< H\n...'`, the parser reports
a region whose sourceSpan starts at offset 1 — not at offset 0 and not
immediately preceded by a newline (the preceding character is `x`): the
regex is not anchored to the start of a line. -/
theorem C9_line_start_counterexample :
    ¬ (∀ m ∈ conflictMatches txtMid,
        m.index = 0 ∨ txtMid[m.index - 1]? = some '\n') := by
  decide

/-- C9 (amended): every region returned by the parser begins at an
occurrence of the 7-character ours marker, but that occurrence need not
start a line.  Same-line label text after the ours marker is ignored and
never changes whether a region is recognized (for any tail, two
newline-free ours labels are equi-recognized); and same-line label text
after the theirs marker is likewise ignored: for a well-formed region,
any newline-free theirs label leaves the region recognized with the same
captured variant bodies — only the reported span length follows the
label — so two theirs labels are equi-recognized as well. -/
theorem C9_anchor_and_labels (s : List Char) (m : RawMatch)
    (lbl lbl' tail : List Char) (t : Triple) (l2 l2' rest : List Char)
    (hm : m ∈ conflictMatches s)
    (h1 : ∀ c ∈ lbl, c ≠ '\n') (h2 : ∀ c ∈ lbl', c ≠ '\n')
    (ht : tripleOK t = true)
    (hl2 : ∀ c ∈ l2, c ≠ '\n') (hl2' : ∀ c ∈ l2', c ≠ '\n')
    (hrest : rest = [] ∨ rest.head? = some '\n') :
    wordLT.isPrefixOf (s.drop m.index) = true
      ∧ (matchAt (wordLT ++ (lbl ++ '\n' :: tail))).isSome
        = (matchAt (wordLT ++ (lbl' ++ '\n' :: tail))).isSome
      ∧ matchAt (blockText { t with lbl2 := l2 } ++ rest)
          = some { index := 0, len := (blockText { t with lbl2 := l2 }).length,
                   ours := bodyText t.oursLines, theirs := bodyText t.theirsLines }
      ∧ (matchAt (blockText { t with lbl2 := l2 } ++ rest)).isSome
        = (matchAt (blockText { t with lbl2 := l2' } ++ rest)).isSome := by
  have hOKs := tripleOK_spec t ht
  have hS := tripleShape_spec t hOKs.1
  have hb2 := matchAt_block { t with lbl2 := l2 } rest hS.1 hl2 hOKs.2.1
    hS.2.2.1 hOKs.2.2 hS.2.2.2 hrest
  have hb2' := matchAt_block { t with lbl2 := l2' } rest hS.1 hl2' hOKs.2.1
    hS.2.2.1 hOKs.2.2 hS.2.2.2 hrest
  refine ⟨?_, ?_, hb2, ?_⟩
  · have h := scan_mem_anchor s.length s 0 m hm
    simpa using h.2
  · exact matchAt_label_isSome lbl lbl' tail h1 h2
  · rw [hb2, hb2']
    rfl

/-- C9 witness: the one region of the C7 text starts at the marker
occurrence at offset 2; two different ours labels and two different
theirs labels recognize the same region. -/
theorem C9_anchor_and_labels_witness :
    ({ index := 2, len := 43, ours := ("foo").data, theirs := ("bar").data } : RawMatch)
        ∈ conflictMatches txtC7
      ∧ tripleOK tripleA = true
      ∧ (wordLT.isPrefixOf (txtC7.drop 2) = true
          ∧ (matchAt (wordLT ++ ((" HEAD").data ++ '\n' ::
                (("foo\n=======\nbar\n>>>>>>> b").data)))).isSome
            = (matchAt (wordLT ++ ((" OTHER LABEL").data ++ '\n' ::
                (("foo\n=======\nbar\n>>>>>>> b").data)))).isSome
          ∧ matchAt (blockText { tripleA with lbl2 := (" y").data } ++ (("\n").data))
            = some { index := 0,
                     len := (blockText { tripleA with lbl2 := (" y").data }).length,
                     ours := bodyText tripleA.oursLines,
                     theirs := bodyText tripleA.theirsLines }
          ∧ (matchAt (blockText { tripleA with lbl2 := (" y").data }
                ++ (("\n").data))).isSome
            = (matchAt (blockText { tripleA with lbl2 := (" other label").data }
                ++ (("\n").data))).isSome) :=
  ⟨by decide, by decide,
    C9_anchor_and_labels txtC7
      { index := 2, len := 43, ours := ("foo").data, theirs := ("bar").data }
      ((" HEAD").data) ((" OTHER LABEL").data) (("foo\n=======\nbar\n>>>>>>> b").data)
      tripleA ((" y").data) ((" other label").data) (("\n").data)
      (by decide) (by decide) (by decide) (by decide) (by decide) (by decide)
      (by decide)⟩

/-- C2 counterexample: the oracle equivalence does not hold for every
assignment of resolved texts.  On a two-region buffer, assign the later
region a resolved text that is itself a full conflict block: the code
splices both resolutions at the original offsets, while the re-parsing
oracle finds the newly introduced block on re-parse, treats it as the
now-last region, and splices the next resolution into it — the final
texts differ. -/
theorem C2_oracle_counterexample :
    rsMarkers.length = (conflictMatches txtTwo).length
      ∧ oracleLoop rsMarkers txtTwo ≠ codeResolve rsMarkers txtTwo := by
  decide

/-- C2 (amended): resolving regions in descending `sourceSpan.start`
order on a single in-memory buffer produces the same final text as the
re-parsing oracle, provided each splice leaves the offsets of the
lower-offset, not-yet-processed regions valid — formalised as: after each
splice, re-parsing the buffer returns exactly the original matches minus
the one just resolved (which holds when resolved texts introduce no new
conflict markers, and fails in general, see the counterexample). -/
theorem C2_descending_order_oracle (rs : List (List Char)) (content : List Char)
    (hstable : stableUnder rs content = true)
    (hlen : rs.length = (conflictMatches content).length) :
    oracleLoop rs content = codeResolve rs content := by
  induction rs generalizing content with
  | nil => simp [oracleLoop, codeResolve, descLoop]
  | cons r rs ih =>
    obtain ⟨m, hL, hEq, hS⟩ := stableUnder_cons r rs content hstable
    have hdecomp := eq_dropLast_append_of_getLast _ _ hL
    have ho : oracleLoop (r :: rs) content
        = oracleLoop rs (spliceAt content m.index m.len r) := by
      simp [oracleLoop, hL]
    have hrev : (conflictMatches content).reverse
        = m :: ((conflictMatches content).dropLast).reverse := by
      conv_lhs => rw [hdecomp]
      simp
    have hc : codeResolve (r :: rs) content
        = descLoop rs (spliceAt content m.index m.len r)
            ((conflictMatches content).dropLast).reverse := by
      unfold codeResolve
      rw [hrev]
      rfl
    have hlen' : rs.length = (conflictMatches (spliceAt content m.index m.len r)).length := by
      rw [hEq, List.length_dropLast]
      simp only [List.length_cons] at hlen
      omega
    rw [ho, hc, ih (spliceAt content m.index m.len r) hS hlen']
    unfold codeResolve
    rw [hEq]

/-- C2 witness: the two-region buffer with marker-free resolved texts is
stable under both splices, and the oracle and the code agree on it. -/
theorem C2_descending_order_oracle_witness :
    stableUnder rsPlain txtTwo = true
      ∧ rsPlain.length = (conflictMatches txtTwo).length
      ∧ oracleLoop rsPlain txtTwo = codeResolve rsPlain txtTwo :=
  ⟨by decide, by decide, C2_descending_order_oracle rsPlain txtTwo (by decide) (by decide)⟩

/-- C4 counterexample: a single well-formed triple whose ours variant
body is completely empty (the marker line is immediately followed by the
separator line, the git format for an empty side) is not matched at all:
the regex demands a newline-delimited line between the markers, so the
parser returns 0 regions instead of 1. -/
theorem C4_wellformed_counterexample :
    anchorFree (([] : List Char) ++ blocksText [(tripleEmptyOurs, [])]) 0 = true
      ∧ benignBlocks0 [(tripleEmptyOurs, [])] = true
      ∧ (conflictMatches (buildText [] [(tripleEmptyOurs, [])])).length ≠ 1 := by
  decide

/-- C4 (amended): for all text containing N well-formed, non-overlapping
conflict-marker triples in which each variant body consists of at least
one (possibly empty) line — i.e. there is at least one newline strictly
between consecutive marker lines; a variant with no line at all between
the markers is not recognized — the parser returns exactly N regions,
the regions' sourceSpans are pairwise disjoint, and each region's span
carves out exactly its triple's marked block (hence the spans' union
contains every marker line of the text), with the capture groups equal to
the two variant bodies. -/
theorem C4_wellformed_triples (pre : List Char) (bs : List (Triple × List Char))
    (hpre : anchorFree (pre ++ blocksText bs) pre.length = true)
    (hbs : benignBlocks bs = true) :
    (conflictMatches (buildText pre bs)).length = bs.length
      ∧ List.Pairwise (fun a b => a.index + a.len ≤ b.index)
          (conflictMatches (buildText pre bs))
      ∧ List.Forall₂ (fun m tf =>
            ((buildText pre bs).drop m.index).take m.len = blockText tf.1
              ∧ m.ours = bodyText tf.1.oursLines ∧ m.theirs = bodyText tf.1.theirsLines)
          (conflictMatches (buildText pre bs)) bs := by
  have hcm := conflictMatches_build pre bs hpre hbs
  refine ⟨?_, ?_, ?_⟩
  · rw [hcm, expectedFrom_length]
  · rw [hcm]
    exact expectedFrom_pairwise _ _
  · rw [hcm]
    exact expectedFrom_slice bs pre

/-- C4 witness: two well-formed triples (the second with a two-line ours
body and an empty-line theirs body) embedded in filler text. -/
theorem C4_wellformed_triples_witness :
    anchorFree ((("a\n").data) ++ blocksText blocksGood) (("a\n").data).length = true
      ∧ benignBlocks blocksGood = true
      ∧ ((conflictMatches (buildText (("a\n").data) blocksGood)).length = blocksGood.length
          ∧ List.Pairwise (fun a b => a.index + a.len ≤ b.index)
              (conflictMatches (buildText (("a\n").data) blocksGood))
          ∧ List.Forall₂ (fun m tf =>
                ((buildText (("a\n").data) blocksGood).drop m.index).take m.len
                    = blockText tf.1
                  ∧ m.ours = bodyText tf.1.oursLines ∧ m.theirs = bodyText tf.1.theirsLines)
              (conflictMatches (buildText (("a\n").data) blocksGood)) blocksGood) :=
  ⟨by decide, by decide,
    C4_wellformed_triples (("a\n").data) blocksGood (by decide) (by decide)⟩
